import Mathlib

/-!
enums-in-go: the DayOfWeek enumeration, its parser, its JSON decoder, the
weekend check and the middleware chain.

Shallow embedding of `internal/enum/enum.go` and of the pure part of
`cmd/main.go`.

* A Go `string` / `[]byte` is a sequence of bytes; a byte is a natural number
  below 256 (`GoString := List Nat`).
* `DayOfWeek` is Go's `int32`; it is embedded as `Int` (no arithmetic is done on
  it, only comparisons with constants).
* A Go `error` is `Option GoString`: `none` is `nil`, `some m` is an error whose
  `Error()` text is `m`.
* `strings.ToLower` has two paths in the Go library: a byte loop for strings
  whose bytes are all below `utf8.RuneSelf`, and `strings.Map(unicode.ToLower, s)`
  for the others. The first is embedded as written; the second is the parameter
  `mapLower` of `ToLower`. `MapToLower caseTable` embeds that second path (UTF-8
  decoding, `unicode.ToLower`, UTF-8 encoding) down to the table
  `unicode.CaseRanges`, which is its parameter `caseTable`.
* A handler is embedded as the response it writes: status code, `Content-Type`
  and the bytes `json.NewEncoder(w).Encode` produces.
-/

namespace EnumsInGo

/-! ## Strings -/

/-- A Go string (or byte slice): its bytes in order. -/
abbrev GoString := List Nat

/-- The bytes of a string literal (UTF-8, as the Go compiler stores literals). -/
def lit (s : String) : GoString :=
  s.toList.flatMap (fun c => (String.utf8EncodeChar c).map UInt8.toNat)

/-- The constant `utf8.RuneSelf`: bytes below it are single-byte runes. -/
def RuneSelf : Nat := 0x80

/-- The per-byte step of the single-byte loop of `strings.ToLower`:
`if 'A' <= c && c <= 'Z' { c += 'a' - 'A' }`. -/
def lowerByte (c : Nat) : Nat :=
  if 65 ≤ c ∧ c ≤ 90 then c + (97 - 65) else c

/-- Embedding of `strings.ToLower`. When every byte is below `utf8.RuneSelf` the
upper-case letters are shifted byte by byte; otherwise the library calls
`strings.Map(unicode.ToLower, s)`, which is the parameter `mapLower`. -/
def ToLower (mapLower : GoString → GoString) (s : GoString) : GoString :=
  if s.all (fun c => decide (c < RuneSelf)) then s.map lowerByte else mapLower s

/-- Embedding of `strings.Trim(s, cutset)` for a cutset of one single-byte rune
`c` (the library then strips that byte from the right end and from the left
end). -/
def Trim (s : GoString) (c : Nat) : GoString :=
  ((s.reverse.dropWhile (fun b => b == c)).reverse).dropWhile (fun b => b == c)

/-! ## `internal/enum/enum.go` -/

/-- The type `DayOfWeek int32`. -/
abbrev DayOfWeek := Int

/-- A Go `error` value: `none` is `nil`, `some m` has message `m`. -/
abbrev GoError := Option GoString

/-- The value of `iota` in the `k`-th ConstSpec (counted from 0) of a const
block. -/
def iota (k : Nat) : DayOfWeek := Int.ofNat k

def DayOfWeekMonday : DayOfWeek := iota 0
def DayOfWeekTuesday : DayOfWeek := iota 1
def DayOfWeekWednesday : DayOfWeek := iota 2
def DayOfWeekThursday : DayOfWeek := iota 3
def DayOfWeekFriday : DayOfWeek := iota 4
def DayOfWeekSaturday : DayOfWeek := iota 5
def DayOfWeekSunday : DayOfWeek := iota 6

/-- The seven declared constants, in declaration order. -/
def validDays : List DayOfWeek :=
  [DayOfWeekMonday, DayOfWeekTuesday, DayOfWeekWednesday, DayOfWeekThursday,
   DayOfWeekFriday, DayOfWeekSaturday, DayOfWeekSunday]

/-- Embedding of `fmt.Errorf("invalid day of week: %s", s)`. -/
def invalidDayOfWeek (s : GoString) : GoError :=
  some (lit "invalid day of week: " ++ s)

/-- Embedding of `DayOfWeekFromString`: a switch on `strings.ToLower(s)`; the
default case returns `-1` and the formatted error. -/
def DayOfWeekFromString (mapLower : GoString → GoString) (s : GoString) :
    DayOfWeek × GoError :=
  let l := ToLower mapLower s
  if l = lit "monday" then (DayOfWeekMonday, none)
  else if l = lit "tuesday" then (DayOfWeekTuesday, none)
  else if l = lit "wednesday" then (DayOfWeekWednesday, none)
  else if l = lit "thursday" then (DayOfWeekThursday, none)
  else if l = lit "friday" then (DayOfWeekFriday, none)
  else if l = lit "saturday" then (DayOfWeekSaturday, none)
  else if l = lit "sunday" then (DayOfWeekSunday, none)
  else (-1, invalidDayOfWeek s)

/-- Embedding of `(d *DayOfWeek) UnmarshalJSON(data)`: the first component is
the receiver `*d` after the call (`d0` is its value before), the second the
returned error. -/
def UnmarshalJSON (mapLower : GoString → GoString) (d0 : DayOfWeek)
    (data : GoString) : DayOfWeek × GoError :=
  let dayStr := Trim data 34
  let r := DayOfWeekFromString mapLower dayStr
  if r.2 ≠ none then (d0, r.2)
  else (r.1, none)

/-- Modelled from the spec: the `String` method of `DayOfWeek`, which
`stringer -type=DayOfWeek -trimprefix=DayOfWeek` writes to
`generated_day_of_week.go`; that file is not among the sources. For the seven
ordinals it returns the canonical capitalised names the spec lists ("Monday" to
"Sunday"). Outside 0..6 the spec leaves the result open; the embedding gives the
text stringer produces there, `DayOfWeek(n)` with `n` in decimal, and no theorem
below depends on that case. -/
def DayOfWeek.String (d : DayOfWeek) : GoString :=
  if d = DayOfWeekMonday then lit "Monday"
  else if d = DayOfWeekTuesday then lit "Tuesday"
  else if d = DayOfWeekWednesday then lit "Wednesday"
  else if d = DayOfWeekThursday then lit "Thursday"
  else if d = DayOfWeekFriday then lit "Friday"
  else if d = DayOfWeekSaturday then lit "Saturday"
  else if d = DayOfWeekSunday then lit "Sunday"
  else lit "DayOfWeek(" ++ lit (toString d) ++ lit ")"

/-! ## `unicode/utf8`, `unicode` and `strings.Map` -/

/-- The constant `utf8.RuneError`, U+FFFD. -/
def RuneError : Nat := 0xFFFD

/-- The lower end of the accept range of the second byte after the head `s0`
(table `acceptRanges`): 0xA0 after 0xE0, 0x90 after 0xF0, else `locb`. -/
def acceptLo (s0 : Nat) : Nat :=
  if s0 = 0xE0 then 0xA0 else if s0 = 0xF0 then 0x90 else 0x80

/-- The upper end of the accept range of the second byte after the head `s0`:
0x9F after 0xED, 0x8F after 0xF4, else `hicb`. -/
def acceptHi (s0 : Nat) : Nat :=
  if s0 = 0xED then 0x9F else if s0 = 0xF4 then 0x8F else 0xBF

/-- Embedding of `utf8.DecodeRuneInString`: the rune at the head of `s` and its
width in bytes. A head byte below `utf8.RuneSelf` is a rune of width 1; the head
bytes 0xC2..0xDF, 0xE0..0xEF and 0xF0..0xF4 open a sequence of 2, 3 and 4 bytes
whose second byte must lie in the accept range of the head and whose further
bytes must lie in 0x80..0xBF; anything else is `(RuneError, 1)`, and the empty
string gives `(RuneError, 0)`. The masks and shifts of the library are written
with `%` and `*`. -/
def DecodeRune (s : GoString) : Nat × Nat :=
  match s with
  | [] => (RuneError, 0)
  | s0 :: t =>
    if s0 < RuneSelf then (s0, 1)
    else if s0 < 0xC2 ∨ 0xF4 < s0 then (RuneError, 1)
    else if s0 < 0xE0 then
      match t with
      | s1 :: _ =>
        if s1 < acceptLo s0 ∨ acceptHi s0 < s1 then (RuneError, 1)
        else ((s0 % 32) * 64 + s1 % 64, 2)
      | _ => (RuneError, 1)
    else if s0 < 0xF0 then
      match t with
      | s1 :: s2 :: _ =>
        if s1 < acceptLo s0 ∨ acceptHi s0 < s1 then (RuneError, 1)
        else if s2 < 0x80 ∨ 0xBF < s2 then (RuneError, 1)
        else ((s0 % 16) * 4096 + (s1 % 64) * 64 + s2 % 64, 3)
      | _ => (RuneError, 1)
    else
      match t with
      | s1 :: s2 :: s3 :: _ =>
        if s1 < acceptLo s0 ∨ acceptHi s0 < s1 then (RuneError, 1)
        else if s2 < 0x80 ∨ 0xBF < s2 then (RuneError, 1)
        else if s3 < 0x80 ∨ 0xBF < s3 then (RuneError, 1)
        else ((s0 % 8) * 262144 + (s1 % 64) * 4096 + (s2 % 64) * 64 + s3 % 64, 4)
      | _ => (RuneError, 1)

/-- Embedding of `utf8.AppendRune` (what `Builder.WriteRune` appends): the UTF-8
bytes of the rune `r`; a surrogate or a value above `utf8.MaxRune` is written as
`RuneError`. -/
def EncodeRune (r : Nat) : GoString :=
  if r ≤ 0x7F then [r]
  else if r ≤ 0x7FF then [0xC0 + r / 64, 0x80 + r % 64]
  else if 0x10FFFF < r ∨ (0xD800 ≤ r ∧ r ≤ 0xDFFF) then [0xEF, 0xBF, 0xBD]
  else if r ≤ 0xFFFF then [0xE0 + r / 4096, 0x80 + (r / 64) % 64, 0x80 + r % 64]
  else [0xF0 + r / 262144, 0x80 + (r / 4096) % 64, 0x80 + (r / 64) % 64, 0x80 + r % 64]

/-- The loop of `strings.Map` from a position inside the string: `skip` is the
number of bytes still belonging to the rune just read. -/
def mapFrom (mapping : Nat → Nat) : Nat → GoString → GoString
  | _, [] => []
  | skip + 1, _ :: rest => mapFrom mapping skip rest
  | 0, b :: rest =>
    EncodeRune (mapping (DecodeRune (b :: rest)).1)
      ++ mapFrom mapping ((DecodeRune (b :: rest)).2 - 1) rest

/-- Embedding of `strings.Map(mapping, s)` for a mapping without negative
results: the runes of `s` are read as `range s` reads them (a byte that opens no
valid sequence is `RuneError`), mapped, and written with `WriteRune`. -/
def Map (mapping : Nat → Nat) (s : GoString) : GoString :=
  mapFrom mapping 0 s

/-- Embedding of `unicode.ToLower`: up to `unicode.MaxASCII` the letters `A`..`Z`
are shifted; above it the library reads the table `unicode.CaseRanges`
(`unicode.To(unicode.LowerCase, r)`), which is the parameter `caseTable`. -/
def unicodeToLower (caseTable : Nat → Nat) (r : Nat) : Nat :=
  if r ≤ 0x7F then (if 65 ≤ r ∧ r ≤ 90 then r + (97 - 65) else r)
  else caseTable r

/-- The multi-byte path of `strings.ToLower`: `strings.Map(unicode.ToLower, s)`. -/
def MapToLower (caseTable : Nat → Nat) (s : GoString) : GoString :=
  Map (unicodeToLower caseTable) s

/-- The two entries of `unicode.CaseRanges` whose lower-case form is at or below
`unicode.MaxASCII`: `{0x0130, 0x0130, d{0, -199, 0}}` (U+0130, capital I with
dot above, to `i`) and `{0x212A, 0x212A, d{0, -8383, 0}}` (U+212A, the Kelvin
sign, to `k`). The other runes are left as they are, so this table stands for
the library's only at inputs whose multi-byte runes have no other lower-case
form. -/
def caseRangesIntoASCII (r : Nat) : Nat :=
  if r = 0x130 then r - 199
  else if r = 0x212A then r - 8383
  else r

/-! ## `cmd/main.go` -/

/-- What `fl.Field().Interface()` can hold: a `DayOfWeek`, or a value of some
other dynamic type. -/
inductive FieldValue where
  | dayOfWeek (d : DayOfWeek)
  | other
  deriving DecidableEq

/-- Embedding of `WeekendValidation`: the type assertion to `enum.DayOfWeek`
(`false` when it fails), then the range check
`dow >= DayOfWeekSaturday && dow <= DayOfWeekSunday`. -/
def WeekendValidation (fl : FieldValue) : Bool :=
  match fl with
  | FieldValue.other => false
  | FieldValue.dayOfWeek dow =>
    decide (dow ≥ DayOfWeekSaturday) && decide (dow ≤ DayOfWeekSunday)

/-- The validator library's `RegisterValidation(tag, fn)` for a non-nil `fn`:
it refuses an empty tag and otherwise registers the function. -/
def RegisterValidation (tag : GoString) : GoError :=
  if tag = [] then some (lit "function Key cannot be empty") else none

/-- The validator library's `Struct` on a struct with one field tagged with a
registered custom rule: the rule is run on the field, and a `false` result is
reported as an error. -/
def validateStruct (rule : FieldValue → Bool) (field : FieldValue) : GoError :=
  if rule field then none
  else some (lit "Key: \x27Day\x27 Error:Field validation for \x27Day\x27 failed on the \x27weekend\x27 tag")

/-! ## `encoding/json`: what `json.NewEncoder(w).Encode` writes -/

/-- The digit `hex[n]` of the encoder, `hex = "0123456789abcdef"`. -/
def hexDigit (n : Nat) : Nat :=
  if n < 10 then 48 + n else 87 + n

/-- The table `htmlSafeSet` of the encoder: the single-byte runes written as
they are, that is all from the blank on except the double quote, `&`, `<`, `>`
and the backslash. -/
def htmlSafe (b : Nat) : Bool :=
  decide (0x20 ≤ b ∧ b ≠ 34 ∧ b ≠ 38 ∧ b ≠ 60 ∧ b ≠ 62 ∧ b ≠ 92)

/-- What the encoder writes for a single-byte rune `b` of a string (Go 1.22 and
later, which the route patterns of `main.go` need): the rune itself when
`htmlSafeSet` has it, a two-character escape for the backslash, the double
quote, backspace, form feed, newline, carriage return and tab, and `\u00` with
two hexadecimal digits otherwise. -/
def escapeByte (b : Nat) : GoString :=
  if htmlSafe b then [b]
  else if b = 92 ∨ b = 34 then [92, b]
  else if b = 8 then [92, 98]
  else if b = 12 then [92, 102]
  else if b = 10 then [92, 110]
  else if b = 13 then [92, 114]
  else if b = 9 then [92, 116]
  else [92, 117, 48, 48, hexDigit (b / 16), hexDigit (b % 16)]

/-- The loop of the encoder's `appendString` (with `escapeHTML` set, as
`Encoder` has it) from a position inside the string: `skip` is the number of
bytes still belonging to the rune just read. A byte that opens no valid sequence
is written as the escape of U+FFFD (a backslash and `ufffd`), U+2028 and U+2029
as their `\u` escapes, and any other multi-byte rune as its own bytes. -/
def appendStringFrom : Nat → GoString → GoString
  | _, [] => []
  | skip + 1, _ :: rest => appendStringFrom skip rest
  | 0, b :: rest =>
    if b < RuneSelf then escapeByte b ++ appendStringFrom 0 rest
    else if (DecodeRune (b :: rest)).1 = RuneError ∧ (DecodeRune (b :: rest)).2 = 1 then
      [92, 117, 102, 102, 102, 100] ++ appendStringFrom 0 rest
    else if (DecodeRune (b :: rest)).1 = 0x2028 ∨ (DecodeRune (b :: rest)).1 = 0x2029 then
      [92, 117, 50, 48, 50, hexDigit ((DecodeRune (b :: rest)).1 % 16)]
        ++ appendStringFrom ((DecodeRune (b :: rest)).2 - 1) rest
    else
      (b :: rest).take (DecodeRune (b :: rest)).2
        ++ appendStringFrom ((DecodeRune (b :: rest)).2 - 1) rest

/-- Embedding of the encoder's `appendString`: the string between double quotes,
escaped. -/
def appendString (s : GoString) : GoString :=
  [34] ++ appendStringFrom 0 s ++ [34]

/-- The order `strings.Compare` gives: byte-wise, a proper initial part first. -/
def bytesLess : GoString → GoString → Bool
  | [], [] => false
  | [], _ :: _ => true
  | _ :: _, [] => false
  | a :: as, b :: bs => if a < b then true else if b < a then false else bytesLess as bs

/-- Insertion of a map entry in key order. -/
def insertEntry (e : GoString × GoString) : List (GoString × GoString) →
    List (GoString × GoString)
  | [] => [e]
  | x :: xs => if bytesLess e.1 x.1 then e :: x :: xs else x :: insertEntry e xs

/-- The entries of a map in the order of their keys, as the encoder sorts
them. -/
def sortEntries (m : List (GoString × GoString)) : List (GoString × GoString) :=
  m.foldr insertEntry []

/-- The members of a JSON object, `key:value` separated by commas. -/
def encodeMembers : List (GoString × GoString) → GoString
  | [] => []
  | [kv] => appendString kv.1 ++ [58] ++ appendString kv.2
  | kv :: rest => appendString kv.1 ++ [58] ++ appendString kv.2 ++ [44] ++ encodeMembers rest

/-- Embedding of `json.NewEncoder(w).Encode(response)` for a
`map[string]interface{}` whose values are strings (the map is given by its
entries): the object with its keys sorted, then a newline. -/
def Encode (response : List (GoString × GoString)) : GoString :=
  [123] ++ encodeMembers (sortEntries response) ++ [125] ++ [10]

/-- What a handler wrote: the status code given to `w.WriteHeader`, the
`Content-Type` header it set, and the bytes of the body. -/
structure Response where
  code : Nat
  contentType : GoString
  body : GoString
  deriving DecidableEq

/-- The constants `http.StatusBadRequest` and `http.StatusOK`. -/
def StatusBadRequest : Nat := 400
def StatusOK : Nat := 200

/-- Embedding of the `GET /weekends/{weekend}` handler as a function from the
path value to the response written: in each branch the header
`Content-Type: application/json`, the status code, and the map given to the JSON
encoder (the log lines are left out). -/
def getWeekendHandler (mapLower : GoString → GoString) (weekendStr : GoString) :
    Response :=
  let r := DayOfWeekFromString mapLower weekendStr
  let weekend := r.1
  if r.2 ≠ none then
    Response.mk StatusBadRequest (lit "application/json")
      (Encode [(lit "status", lit "error"),
        (lit "message", lit "Invalid weekend: " ++ weekendStr)])
  else if RegisterValidation (lit "weekend") ≠ none then
    Response.mk StatusBadRequest (lit "application/json")
      (Encode [(lit "status", lit "error"),
        (lit "message", lit "Invalid weekend: " ++ weekendStr)])
  else if validateStruct WeekendValidation (FieldValue.dayOfWeek weekend) ≠ none then
    Response.mk StatusBadRequest (lit "application/json")
      (Encode [(lit "status", lit "error"),
        (lit "message", DayOfWeek.String weekend ++ lit " is not a weekend")])
  else
    Response.mk StatusOK (lit "application/json")
      (Encode [(lit "status", lit "success"),
        (lit "weekend", DayOfWeek.String weekend)])

/-- Embedding of `ChainMiddleware`: the loop `for _, middleware := range
middlewares { h = middleware(h) }` followed by `return h`. `H` stands for
`http.Handler`, a middleware is a function `H → H`. -/
def ChainMiddleware {H : Type} (h : H) : List (H → H) → H
  | [] => h
  | middleware :: rest => ChainMiddleware (middleware h) rest

/-! ## Notions of the specification -/

/-- The other-case form of a byte: an upper-case letter becomes lower-case, a
lower-case letter upper-case, any other byte stays. -/
def swapCase (c : Nat) : Nat :=
  if 65 ≤ c ∧ c ≤ 90 then c + 32
  else if 97 ≤ c ∧ c ≤ 122 then c - 32
  else c

/-- The string obtained from `s` by changing the case of the letters at the
positions `i` with `sel i = true` (positions counted from 0). -/
def changeCase (sel : Nat → Bool) : GoString → GoString
  | [] => []
  | c :: cs => (if sel 0 then swapCase c else c) :: changeCase (fun i => sel (i + 1)) cs

/-- The nesting `mN (... (m2 (m1 h)))` written from the outside in: the list
holds the middlewares outermost first. -/
def nested {H : Type} : List (H → H) → H → H
  | [], h => h
  | outer :: inner, h => outer (nested inner h)

/-- A stand-in for the multi-byte path of `strings.ToLower` that returns its
argument; it is used to evaluate the program at inputs made of single-byte runes
only, where that path is not taken. -/
def singleByteOnly : GoString → GoString := fun s => s

/-- The string `p` between double quotes: the bytes of a JSON string whose
content needs no escape. -/
def quoted (p : GoString) : GoString := 34 :: (p ++ [34])

/-- What is known of `unicode.CaseRanges` about lower-case forms at or below
`unicode.MaxASCII`: the only runes above it with such a form are U+0130, whose
form is `i`, and U+212A, whose form is `k`. -/
def LowersIntoASCII (caseTable : Nat → Nat) : Prop :=
  ∀ r, RuneSelf ≤ r → caseTable r < RuneSelf →
    (r = 0x130 ∧ caseTable r = 0x69) ∨ (r = 0x212A ∧ caseTable r = 0x6B)

/-- `s` is a casing variant of `name`: `name` with the case of the letters at
some set of positions changed. -/
def isCasingVariant (s name : GoString) : Prop :=
  ∃ sel : Nat → Bool, s = changeCase sel name

/-- The value of a hexadecimal digit, if `c` is one. -/
def hexValue (c : Nat) : Option Nat :=
  if 48 ≤ c ∧ c ≤ 57 then some (c - 48)
  else if 97 ≤ c ∧ c ≤ 102 then some (c - 87)
  else if 65 ≤ c ∧ c ≤ 70 then some (c - 55)
  else none

/-- The character a two-character escape of JSON stands for. -/
def simpleEscape (x : Nat) : Option Nat :=
  if x = 34 then some 34
  else if x = 92 then some 92
  else if x = 47 then some 47
  else if x = 98 then some 8
  else if x = 102 then some 12
  else if x = 110 then some 10
  else if x = 114 then some 13
  else if x = 116 then some 9
  else none

/-- The text a JSON string stands for, given what is written between its double
quotes (RFC 8259, section 7): a backslash opens a two-character escape or a
`\u` escape of four hexadecimal digits, which stands for the UTF-8 bytes of
that code point; a control character or a bare double quote is not allowed; any
other byte stands for itself. `none` when the text is no JSON string, or holds
the escape of a surrogate. -/
def jsonStringValue : GoString → Option GoString
  | [] => some []
  | b :: rest =>
    if b = 92 then
      match rest with
      | [] => none
      | x :: rest1 =>
        if x = 117 then
          match rest1 with
          | [] => none
          | [_] => none
          | [_, _] => none
          | [_, _, _] => none
          | h1 :: h2 :: h3 :: h4 :: rest2 =>
            (hexValue h1).bind fun d1 =>
            (hexValue h2).bind fun d2 =>
            (hexValue h3).bind fun d3 =>
            (hexValue h4).bind fun d4 =>
            (jsonStringValue rest2).bind fun v =>
              if 0xD800 ≤ ((d1 * 16 + d2) * 16 + d3) * 16 + d4 ∧
                  ((d1 * 16 + d2) * 16 + d3) * 16 + d4 ≤ 0xDFFF then none
              else some (EncodeRune (((d1 * 16 + d2) * 16 + d3) * 16 + d4) ++ v)
        else
          (simpleEscape x).bind fun c =>
          (jsonStringValue rest1).map fun v => c :: v
    else if b < 0x20 ∨ b = 34 then none
    else (jsonStringValue rest).map (fun v => b :: v)

/-- The loop of `utf8.ValidString` from a position inside the string. -/
def validFrom : Nat → GoString → Bool
  | _, [] => true
  | skip + 1, _ :: rest => validFrom skip rest
  | 0, b :: rest =>
    !(decide ((DecodeRune (b :: rest)).1 = RuneError ∧ (DecodeRune (b :: rest)).2 = 1))
      && validFrom ((DecodeRune (b :: rest)).2 - 1) rest

/-- Embedding of `utf8.ValidString`: `s` is made of valid UTF-8 sequences
only. -/
def ValidString (s : GoString) : Bool :=
  validFrom 0 s

/-! ## Lemmas on the string operations -/

theorem lowerByte_swapCase (c : Nat) : lowerByte (swapCase c) = lowerByte c := by
  unfold lowerByte swapCase
  split_ifs <;> omega

theorem swapCase_lt_RuneSelf (c : Nat) (h : c < RuneSelf) : swapCase c < RuneSelf := by
  unfold swapCase RuneSelf at *
  split_ifs <;> omega

theorem ToLower_of_singleByte (mapLower : GoString → GoString) (s : GoString)
    (h : s.all (fun c => decide (c < RuneSelf)) = true) :
    ToLower mapLower s = s.map lowerByte := by
  simp [ToLower, h]

theorem all_singleByte_changeCase (s : GoString) :
    ∀ sel : Nat → Bool, s.all (fun c => decide (c < RuneSelf)) = true →
      (changeCase sel s).all (fun c => decide (c < RuneSelf)) = true := by
  induction s with
  | nil => intro sel _; rfl
  | cons c cs ih =>
    intro sel h
    simp only [List.all_cons, Bool.and_eq_true, decide_eq_true_eq] at h
    simp only [changeCase, List.all_cons, Bool.and_eq_true, decide_eq_true_eq]
    refine ⟨?_, ih _ h.2⟩
    split_ifs
    · exact swapCase_lt_RuneSelf c h.1
    · exact h.1

theorem map_lowerByte_changeCase (s : GoString) :
    ∀ sel : Nat → Bool, (changeCase sel s).map lowerByte = s.map lowerByte := by
  induction s with
  | nil => intro sel; rfl
  | cons c cs ih =>
    intro sel
    simp only [changeCase, List.map_cons, ih]
    split_ifs
    · rw [lowerByte_swapCase]
    · rfl

/-- Changing the case of letters of a single-byte string does not change its
`strings.ToLower` form. -/
theorem ToLower_changeCase (mapLower : GoString → GoString) (sel : Nat → Bool)
    (s : GoString) (h : s.all (fun c => decide (c < RuneSelf)) = true) :
    ToLower mapLower (changeCase sel s) = ToLower mapLower s := by
  rw [ToLower_of_singleByte mapLower _ (all_singleByte_changeCase s sel h),
    ToLower_of_singleByte mapLower s h, map_lowerByte_changeCase]

theorem mem_validDays (d : DayOfWeek) :
    d ∈ validDays ↔ d = 0 ∨ d = 1 ∨ d = 2 ∨ d = 3 ∨ d = 4 ∨ d = 5 ∨ d = 6 := by
  simp [validDays, DayOfWeekMonday, DayOfWeekTuesday, DayOfWeekWednesday,
    DayOfWeekThursday, DayOfWeekFriday, DayOfWeekSaturday, DayOfWeekSunday, iota]

/-- The canonical names are made of single-byte runes. -/
theorem String_singleByte (d : DayOfWeek) (hd : d ∈ validDays) :
    (DayOfWeek.String d).all (fun c => decide (c < RuneSelf)) = true := by
  rw [mem_validDays] at hd
  rcases hd with h | h | h | h | h | h | h <;> subst h <;> decide

/-- The parser on an input whose lower-case form is that of a canonical name. -/
theorem DayOfWeekFromString_of_ToLower (mapLower : GoString → GoString)
    (s : GoString) (d : DayOfWeek) (hd : d ∈ validDays)
    (h : ToLower mapLower s = ToLower mapLower (DayOfWeek.String d)) :
    DayOfWeekFromString mapLower s = (d, none) := by
  rw [ToLower_of_singleByte mapLower _ (String_singleByte d hd)] at h
  rw [mem_validDays] at hd
  unfold DayOfWeekFromString
  rcases hd with e | e | e | e | e | e | e <;> subst e <;> simp only [h] <;> rfl

/-- The two outcomes of the parser: the default case, taken when the lower-case
form of the input is that of no canonical name, or one of the seven cases. -/
theorem DayOfWeekFromString_cases (mapLower : GoString → GoString) (s : GoString) :
    ((∀ d ∈ validDays, ToLower mapLower s ≠ ToLower mapLower (DayOfWeek.String d)) ∧
        DayOfWeekFromString mapLower s = (-1, some (lit "invalid day of week: " ++ s))) ∨
      (∃ d ∈ validDays, ToLower mapLower s = ToLower mapLower (DayOfWeek.String d) ∧
        DayOfWeekFromString mapLower s = (d, none)) := by
  by_cases h : ∃ d ∈ validDays, ToLower mapLower s = ToLower mapLower (DayOfWeek.String d)
  · obtain ⟨d, hd, e⟩ := h
    exact Or.inr ⟨d, hd, e, DayOfWeekFromString_of_ToLower mapLower s d hd e⟩
  · push_neg at h
    refine Or.inl ⟨h, ?_⟩
    have h0 : ToLower mapLower s ≠ lit "monday" := h DayOfWeekMonday (by decide)
    have h1 : ToLower mapLower s ≠ lit "tuesday" := h DayOfWeekTuesday (by decide)
    have h2 : ToLower mapLower s ≠ lit "wednesday" := h DayOfWeekWednesday (by decide)
    have h3 : ToLower mapLower s ≠ lit "thursday" := h DayOfWeekThursday (by decide)
    have h4 : ToLower mapLower s ≠ lit "friday" := h DayOfWeekFriday (by decide)
    have h5 : ToLower mapLower s ≠ lit "saturday" := h DayOfWeekSaturday (by decide)
    have h6 : ToLower mapLower s ≠ lit "sunday" := h DayOfWeekSunday (by decide)
    simp only [DayOfWeekFromString, invalidDayOfWeek, if_neg h0, if_neg h1, if_neg h2,
      if_neg h3, if_neg h4, if_neg h5, if_neg h6]

theorem Trim_quoted (p : GoString) (hhead : p.head? ≠ some 34)
    (hlast : p.getLast? ≠ some 34) : Trim (quoted p) 34 = p := by
  rcases List.eq_nil_or_concat p with rfl | ⟨q, a, rfl⟩
  · rfl
  · rw [List.concat_eq_append] at hhead hlast ⊢
    have ha : a ≠ 34 := by simpa using hlast
    have hrev : (quoted (q ++ [a])).reverse = 34 :: a :: (q.reverse ++ [34]) := by
      simp [quoted]
    have hback : (a :: (q.reverse ++ [34])).reverse = 34 :: (q ++ [a]) := by simp
    unfold Trim
    rw [hrev, List.dropWhile_cons_of_pos (by simp),
      List.dropWhile_cons_of_neg (by simpa using ha), hback,
      List.dropWhile_cons_of_pos (by simp)]
    cases q with
    | nil => exact List.dropWhile_cons_of_neg (by simpa using ha)
    | cons b bs =>
      have hb : b ≠ 34 := by simpa using hhead
      exact List.dropWhile_cons_of_neg (by simpa using hb)

theorem ChainMiddleware_append {H : Type} (ms : List (H → H)) :
    ∀ (h : H) (m : H → H), ChainMiddleware h (ms ++ [m]) = m (ChainMiddleware h ms) := by
  induction ms with
  | nil => intro h m; rfl
  | cons a rest ih => intro h m; exact ih (a h) m

theorem eq_or_swapCase_of_lowerByte_eq (a c : Nat)
    (h : lowerByte a = lowerByte c) : a = c ∨ a = swapCase c := by
  unfold lowerByte at h
  unfold swapCase
  split_ifs at h ⊢ <;> omega

theorem exists_changeCase_of_map_lowerByte_eq (name : GoString) :
    ∀ s : GoString, s.map lowerByte = name.map lowerByte →
      ∃ sel : Nat → Bool, s = changeCase sel name := by
  induction name with
  | nil =>
    intro s h
    exact ⟨fun _ => false, by simpa using h⟩
  | cons c cs ih =>
    intro s h
    cases s with
    | nil => simp at h
    | cons a rest =>
      simp only [List.map_cons, List.cons.injEq] at h
      obtain ⟨sel, hsel⟩ := ih rest h.2
      refine ⟨fun i => match i with
        | 0 => decide (a ≠ c)
        | k + 1 => sel k, ?_⟩
      simp only [changeCase, List.cons.injEq]
      refine ⟨?_, hsel⟩
      rcases eq_or_swapCase_of_lowerByte_eq a c h.1 with e | e
      · simp [e]
      · subst e
        by_cases hac : swapCase c = c <;> simp [hac]

/-! ## Lemmas on UTF-8 and `strings.Map` -/

theorem EncodeRune_ne_nil (r : Nat) : EncodeRune r ≠ [] := by
  unfold EncodeRune; split_ifs <;> simp

theorem EncodeRune_of_lt (r : Nat) (h : r < RuneSelf) : EncodeRune r = [r] := by
  unfold RuneSelf at h
  unfold EncodeRune; rw [if_pos (by omega)]

/-- The bytes of a rune at or above `utf8.RuneSelf` are all at or above it. -/
theorem EncodeRune_bytes_ge (r : Nat) (h : RuneSelf ≤ r) :
    ∀ b ∈ EncodeRune r, RuneSelf ≤ b := by
  unfold RuneSelf at *
  unfold EncodeRune
  split_ifs <;> simp <;> omega

theorem acceptLo_spec (s0 : Nat) :
    (s0 = 0xE0 → acceptLo s0 = 0xA0) ∧ (s0 = 0xF0 → acceptLo s0 = 0x90) ∧
      0x80 ≤ acceptLo s0 := by
  unfold acceptLo; split_ifs <;> omega

theorem acceptHi_spec (s0 : Nat) :
    (s0 = 0xED → acceptHi s0 = 0x9F) ∧ (s0 = 0xF4 → acceptHi s0 = 0x8F) ∧
      acceptHi s0 ≤ 0xBF := by
  unfold acceptHi; split_ifs <;> omega

set_option maxHeartbeats 1000000 in
/-- A multi-byte head either opens no valid sequence or is followed by the rest
of the canonical encoding of the rune read. -/
theorem DecodeRune_multiByte (b : Nat) (rest : GoString) (hb : RuneSelf ≤ b) :
    DecodeRune (b :: rest) = (RuneError, 1) ∨
      (b :: rest = EncodeRune (DecodeRune (b :: rest)).1
          ++ (b :: rest).drop (DecodeRune (b :: rest)).2 ∧
        (DecodeRune (b :: rest)).2 = (EncodeRune (DecodeRune (b :: rest)).1).length ∧
        RuneSelf ≤ (DecodeRune (b :: rest)).1) := by
  unfold RuneSelf at hb
  have hlo := acceptLo_spec b
  have hhi := acceptHi_spec b
  rcases rest with _ | ⟨s1, _ | ⟨s2, _ | ⟨s3, t⟩⟩⟩
  all_goals
    simp only [DecodeRune, RuneSelf, RuneError]
    generalize acceptLo b = lo at hlo ⊢
    generalize acceptHi b = hi at hhi ⊢
    split_ifs
  all_goals first
    | (left; rfl)
    | (right
       simp only [EncodeRune]
       split_ifs
       all_goals first
         | omega
         | (simp; omega))

theorem mapFrom_skip (mapping : Nat → Nat) (n : Nat) :
    ∀ l : GoString, mapFrom mapping n l = mapFrom mapping 0 (l.drop n) := by
  induction n with
  | zero => intro l; rfl
  | succ k ih =>
    intro l
    cases l with
    | nil => rfl
    | cons a rest => simpa [mapFrom] using ih rest

/-- One turn of the loop of `strings.Map`. -/
theorem Map_cons (mapping : Nat → Nat) (b : Nat) (rest : GoString) :
    Map mapping (b :: rest) = EncodeRune (mapping (DecodeRune (b :: rest)).1)
      ++ Map mapping (rest.drop ((DecodeRune (b :: rest)).2 - 1)) := by
  simp only [Map, mapFrom]
  rw [mapFrom_skip]

theorem DecodeRune_of_lt (b : Nat) (rest : GoString) (hb : b < RuneSelf) :
    DecodeRune (b :: rest) = (b, 1) := by
  simp [DecodeRune, hb]

theorem unicodeToLower_of_lt (caseTable : Nat → Nat) (b : Nat) (hb : b < RuneSelf) :
    unicodeToLower caseTable b = lowerByte b := by
  unfold RuneSelf at hb
  unfold unicodeToLower lowerByte
  rw [if_pos (by omega)]

theorem lowerByte_lt (b : Nat) (hb : b < RuneSelf) : lowerByte b < RuneSelf := by
  unfold RuneSelf at *
  unfold lowerByte
  split_ifs <;> omega

theorem MapToLower_cons_of_lt (caseTable : Nat → Nat) (b : Nat) (rest : GoString)
    (hb : b < RuneSelf) :
    MapToLower caseTable (b :: rest) = lowerByte b :: MapToLower caseTable rest := by
  unfold MapToLower
  rw [Map_cons, DecodeRune_of_lt b rest hb]
  simp [unicodeToLower_of_lt caseTable b hb, EncodeRune_of_lt _ (lowerByte_lt b hb)]

/-- On a string of single-byte runes the multi-byte path does what the byte
loop does. -/
theorem MapToLower_of_singleByte (caseTable : Nat → Nat) (s : GoString)
    (h : s.all (fun c => decide (c < RuneSelf)) = true) :
    MapToLower caseTable s = s.map lowerByte := by
  induction s with
  | nil => rfl
  | cons b rest ih =>
    simp only [List.all_cons, Bool.and_eq_true, decide_eq_true_eq] at h
    rw [MapToLower_cons_of_lt caseTable b rest h.1, ih h.2, List.map_cons]

/-- When the lower-case form of a string starts with a single-byte rune `c`, the
string starts with a single byte of that lower-case form, or with U+0130 when
`c` is `i`, or with U+212A when `c` is `k`. -/
theorem MapToLower_cons_inv (caseTable : Nat → Nat) (H : LowersIntoASCII caseTable)
    (b : Nat) (rest : GoString) (c : Nat) (L : GoString) (hc : c < RuneSelf)
    (h : MapToLower caseTable (b :: rest) = c :: L) :
    (b < RuneSelf ∧ lowerByte b = c ∧ MapToLower caseTable rest = L) ∨
    (c = 0x69 ∧ ∃ tail, b :: rest = 0xC4 :: 0xB0 :: tail ∧ MapToLower caseTable tail = L) ∨
    (c = 0x6B ∧ ∃ tail, b :: rest = 0xE2 :: 0x84 :: 0xAA :: tail ∧
      MapToLower caseTable tail = L) := by
  by_cases hb : b < RuneSelf
  · rw [MapToLower_cons_of_lt caseTable b rest hb] at h
    simp only [List.cons.injEq] at h
    exact Or.inl ⟨hb, h.1, h.2⟩
  · have hb' : RuneSelf ≤ b := Nat.le_of_not_lt hb
    right
    unfold MapToLower at h ⊢
    rw [Map_cons] at h
    -- the rune read is at or above RuneSelf
    have hr : RuneSelf ≤ (DecodeRune (b :: rest)).1 := by
      rcases DecodeRune_multiByte b rest hb' with e | ⟨_, _, e⟩
      · rw [e]; decide
      · exact e
    have hlow : unicodeToLower caseTable (DecodeRune (b :: rest)).1
        = caseTable (DecodeRune (b :: rest)).1 := by
      unfold RuneSelf at hr
      unfold unicodeToLower
      rw [if_neg (by omega)]
    rw [hlow] at h
    -- its lower-case form is the single byte `c`
    have hlt : caseTable (DecodeRune (b :: rest)).1 < RuneSelf := by
      by_contra hge
      have hmem : c ∈ EncodeRune (caseTable (DecodeRune (b :: rest)).1) := by
        rcases hE : EncodeRune (caseTable (DecodeRune (b :: rest)).1) with _ | ⟨x, xs⟩
        · exact absurd hE (EncodeRune_ne_nil _)
        · rw [hE] at h
          simp only [List.cons_append, List.cons.injEq] at h
          rw [h.1]; exact List.mem_cons_self _ _
      exact absurd hc (Nat.not_lt.mpr (EncodeRune_bytes_ge _ (Nat.le_of_not_lt hge) c hmem))
    rw [EncodeRune_of_lt _ hlt] at h
    simp only [List.singleton_append, List.cons.injEq] at h
    rcases DecodeRune_multiByte b rest hb' with e | ⟨e1, e2, _⟩
    · rcases H _ hr hlt with ⟨h1, _⟩ | ⟨h1, _⟩ <;> rw [e] at h1 <;> simp [RuneError] at h1
    · rcases H _ hr hlt with ⟨h1, h2⟩ | ⟨h1, h2⟩
      · left
        refine ⟨by rw [← h.1, h2], (b :: rest).drop 2, ?_, ?_⟩
        · rw [h1] at e1 e2
          have e3 : (DecodeRune (b :: rest)).2 = 2 := by rw [e2]; decide
          rw [e3] at e1
          exact e1
        · rw [h1] at e2
          have e3 : (DecodeRune (b :: rest)).2 = 2 := by rw [e2]; decide
          rw [e3] at h
          exact h.2
      · right
        refine ⟨by rw [← h.1, h2], (b :: rest).drop 3, ?_, ?_⟩
        · rw [h1] at e1 e2
          have e3 : (DecodeRune (b :: rest)).2 = 3 := by rw [e2]; decide
          rw [e3] at e1
          exact e1
        · rw [h1] at e2
          have e3 : (DecodeRune (b :: rest)).2 = 3 := by rw [e2]; decide
          rw [e3] at h
          exact h.2

theorem MapToLower_nil (caseTable : Nat → Nat) : MapToLower caseTable [] = [] := rfl

/-- A lower-case form made of single-byte runes other than `i` and `k` comes
from a string of single-byte runes. -/
theorem singleByte_of_MapToLower (caseTable : Nat → Nat) (H : LowersIntoASCII caseTable)
    (L : GoString) :
    (∀ c ∈ L, c < RuneSelf ∧ c ≠ 0x69 ∧ c ≠ 0x6B) →
      ∀ s : GoString, MapToLower caseTable s = L →
        s.all (fun c => decide (c < RuneSelf)) = true := by
  induction L with
  | nil =>
    intro _ s h
    cases s with
    | nil => rfl
    | cons b rest =>
      unfold MapToLower at h
      rw [Map_cons] at h
      exact absurd (List.append_eq_nil.mp h).1 (EncodeRune_ne_nil _)
  | cons c L ih =>
    intro hL s h
    cases s with
    | nil => rw [MapToLower_nil] at h; exact absurd h (by simp)
    | cons b rest =>
      have hc := hL c (List.mem_cons_self _ _)
      rcases MapToLower_cons_inv caseTable H b rest c L hc.1 h with
        ⟨hb, _, hrest⟩ | ⟨e, _⟩ | ⟨e, _⟩
      · simp only [List.all_cons, Bool.and_eq_true, decide_eq_true_eq]
        exact ⟨hb, ih (fun x hx => hL x (List.mem_cons_of_mem _ hx)) rest hrest⟩
      · exact absurd e hc.2.1
      · exact absurd e hc.2.2

theorem isCasingVariant_iff (s name : GoString) :
    isCasingVariant s name ↔ s.map lowerByte = name.map lowerByte := by
  constructor
  · rintro ⟨sel, rfl⟩
    exact map_lowerByte_changeCase name sel
  · exact exists_changeCase_of_map_lowerByte_eq name s

/-- The inputs the parser accepts under Go's case tables: the casing variants of
a canonical name, and those of `Friday` written with U+0130 for its `i`. -/
theorem isCasingVariant_of_ToLower (caseTable : Nat → Nat) (H : LowersIntoASCII caseTable)
    (s : GoString) (d : DayOfWeek) (hd : d ∈ validDays)
    (h : ToLower (MapToLower caseTable) s
      = ToLower (MapToLower caseTable) (DayOfWeek.String d)) :
    isCasingVariant s (DayOfWeek.String d) ∨
      (d = DayOfWeekFriday ∧ isCasingVariant s (lit "FR\u0130DAY")) := by
  rw [ToLower_of_singleByte _ _ (String_singleByte d hd)] at h
  by_cases hs : s.all (fun c => decide (c < RuneSelf)) = true
  · rw [ToLower_of_singleByte _ s hs] at h
    exact Or.inl ((isCasingVariant_iff s _).mpr h)
  · have h' : MapToLower caseTable s = (DayOfWeek.String d).map lowerByte := by
      unfold ToLower at h
      rw [if_neg hs] at h
      exact h
    have key : ∀ L : GoString, MapToLower caseTable s = L →
        ¬ (∀ c ∈ L, c < RuneSelf ∧ c ≠ 0x69 ∧ c ≠ 0x6B) :=
      fun L e hL => hs (singleByte_of_MapToLower caseTable H L hL s e)
    rw [mem_validDays] at hd
    rcases hd with e | e | e | e | e | e | e <;> subst e
    · exact absurd (by decide) (key _ h')
    · exact absurd (by decide) (key _ h')
    · exact absurd (by decide) (key _ h')
    · exact absurd (by decide) (key _ h')
    · right
      refine ⟨rfl, ?_⟩
      have h4 : MapToLower caseTable s = [102, 114, 105, 100, 97, 121] := h'
      rw [isCasingVariant_iff]
      cases s with
      | nil => exact absurd h4 (by simp [MapToLower_nil])
      | cons b0 s1 =>
        rcases MapToLower_cons_inv caseTable H b0 s1 _ _ (by decide) h4 with
          ⟨hb0, e0, h3⟩ | ⟨e, _⟩ | ⟨e, _⟩
        · cases s1 with
          | nil => exact absurd h3 (by simp [MapToLower_nil])
          | cons b1 s2 =>
            rcases MapToLower_cons_inv caseTable H b1 s2 _ _ (by decide) h3 with
              ⟨hb1, e1, h2⟩ | ⟨e, _⟩ | ⟨e, _⟩
            · cases s2 with
              | nil => exact absurd h2 (by simp [MapToLower_nil])
              | cons b2 s3 =>
                rcases MapToLower_cons_inv caseTable H b2 s3 _ _ (by decide) h2 with
                  ⟨hb2, _, h1⟩ | ⟨_, tail, et, h1⟩ | ⟨e, _⟩
                · have ht := singleByte_of_MapToLower caseTable H _ (by decide) s3 h1
                  exact absurd (by simp [hb0, hb1, hb2, ht]) hs
                · have ht := singleByte_of_MapToLower caseTable H _ (by decide) tail h1
                  rw [MapToLower_of_singleByte caseTable tail ht] at h1
                  rw [et]
                  simp only [List.map_cons, e0, e1, h1]
                  decide
                · exact absurd e (by decide)
            · exact absurd e (by decide)
            · exact absurd e (by decide)
        · exact absurd e (by decide)
        · exact absurd e (by decide)
    · exact absurd (by decide) (key _ h')
    · exact absurd (by decide) (key _ h')

theorem LowersIntoASCII_caseRangesIntoASCII : LowersIntoASCII caseRangesIntoASCII := by
  intro r hr h
  unfold RuneSelf at hr h
  unfold caseRangesIntoASCII at h ⊢
  split_ifs at h ⊢ <;> omega

theorem not_isCasingVariant_of_map_ne (s : GoString)
    (h : ∀ d ∈ validDays, s.map lowerByte ≠ (DayOfWeek.String d).map lowerByte) :
    ∀ d ∈ validDays, ¬ isCasingVariant s (DayOfWeek.String d) :=
  fun d hd hv => h d hd ((isCasingVariant_iff s _).mp hv)

theorem ToLower_of_isCasingVariant (mapLower : GoString → GoString) (s : GoString)
    (d : DayOfWeek) (hd : d ∈ validDays) (h : isCasingVariant s (DayOfWeek.String d)) :
    ToLower mapLower s = ToLower mapLower (DayOfWeek.String d) := by
  obtain ⟨sel, rfl⟩ := h
  exact ToLower_changeCase mapLower sel _ (String_singleByte d hd)

/-! ## Lemmas on the JSON encoder -/

theorem appendStringFrom_skip (n : Nat) :
    ∀ l : GoString, appendStringFrom n l = appendStringFrom 0 (l.drop n) := by
  induction n with
  | zero => intro l; rfl
  | succ k ih =>
    intro l
    cases l with
    | nil => rfl
    | cons a rest => simpa [appendStringFrom] using ih rest

theorem validFrom_skip (n : Nat) :
    ∀ l : GoString, validFrom n l = validFrom 0 (l.drop n) := by
  induction n with
  | zero => intro l; rfl
  | succ k ih =>
    intro l
    cases l with
    | nil => rfl
    | cons a rest => simpa [validFrom] using ih rest

theorem hexValue_hexDigit (n : Nat) (h : n < 16) : hexValue (hexDigit n) = some n := by
  interval_cases n <;> rfl

theorem jsonStringValue_cons_plain (b : Nat) (e : GoString)
    (h : 0x20 ≤ b ∧ b ≠ 34 ∧ b ≠ 92) :
    jsonStringValue (b :: e) = (jsonStringValue e).map (fun v => b :: v) := by
  have h1 : ¬ (b < 0x20 ∨ b = 34) := by omega
  conv_lhs => unfold jsonStringValue
  simp only [if_neg h.2.2, if_neg h1]

theorem jsonStringValue_simpleEscape (x c : Nat) (e : GoString) (hx : x ≠ 117)
    (h : simpleEscape x = some c) :
    jsonStringValue (92 :: x :: e) = (jsonStringValue e).map (fun v => c :: v) := by
  conv_lhs => unfold jsonStringValue
  simp only [if_true, if_neg hx, h, Option.some_bind]

theorem jsonStringValue_unicodeEscape (h1 h2 h3 h4 d1 d2 d3 d4 : Nat) (e : GoString)
    (e1 : hexValue h1 = some d1) (e2 : hexValue h2 = some d2)
    (e3 : hexValue h3 = some d3) (e4 : hexValue h4 = some d4)
    (hs : ¬ (0xD800 ≤ ((d1 * 16 + d2) * 16 + d3) * 16 + d4 ∧
      ((d1 * 16 + d2) * 16 + d3) * 16 + d4 ≤ 0xDFFF)) :
    jsonStringValue (92 :: 117 :: h1 :: h2 :: h3 :: h4 :: e)
      = (jsonStringValue e).map
          (fun v => EncodeRune (((d1 * 16 + d2) * 16 + d3) * 16 + d4) ++ v) := by
  conv_lhs => unfold jsonStringValue
  simp only [if_true, e1, e2, e3, e4, Option.some_bind, if_neg hs]
  cases jsonStringValue e <;> rfl

/-- Reading back what the encoder writes for a single-byte rune gives the
rune. -/
theorem jsonStringValue_escapeByte (b : Nat) (e : GoString) (hb : b < RuneSelf) :
    jsonStringValue (escapeByte b ++ e) = (jsonStringValue e).map (fun v => b :: v) := by
  unfold RuneSelf at hb
  unfold escapeByte
  split_ifs with hsafe h1 h2 h3 h4 h5 h6
  · simp only [htmlSafe, decide_eq_true_eq] at hsafe
    exact jsonStringValue_cons_plain b e ⟨hsafe.1, hsafe.2.1, hsafe.2.2.2.2.2⟩
  · rcases h1 with rfl | rfl
    · exact jsonStringValue_simpleEscape 92 92 e (by decide) rfl
    · exact jsonStringValue_simpleEscape 34 34 e (by decide) rfl
  · subst h2; exact jsonStringValue_simpleEscape 98 8 e (by decide) rfl
  · subst h3; exact jsonStringValue_simpleEscape 102 12 e (by decide) rfl
  · subst h4; exact jsonStringValue_simpleEscape 110 10 e (by decide) rfl
  · subst h5; exact jsonStringValue_simpleEscape 114 13 e (by decide) rfl
  · subst h6; exact jsonStringValue_simpleEscape 116 9 e (by decide) rfl
  · have hq : b / 16 < 16 := by omega
    have hr : b % 16 < 16 := by omega
    have key := jsonStringValue_unicodeEscape 48 48 (hexDigit (b / 16)) (hexDigit (b % 16))
      0 0 (b / 16) (b % 16) e rfl rfl (hexValue_hexDigit _ hq) (hexValue_hexDigit _ hr)
      (by omega)
    have hcp : ((0 * 16 + 0) * 16 + b / 16) * 16 + b % 16 = b := by omega
    rw [hcp, EncodeRune_of_lt b (by unfold RuneSelf; omega)] at key
    exact key

theorem jsonStringValue_append_plain (chunk : GoString) (e : GoString)
    (h : ∀ b ∈ chunk, 0x20 ≤ b ∧ b ≠ 34 ∧ b ≠ 92) :
    jsonStringValue (chunk ++ e) = (jsonStringValue e).map (fun v => chunk ++ v) := by
  induction chunk with
  | nil => cases h' : jsonStringValue e <;> simp [h']
  | cons b rest ih =>
    rw [List.cons_append, jsonStringValue_cons_plain b _ (h b (List.mem_cons_self _ _)),
      ih (fun x hx => h x (List.mem_cons_of_mem _ hx))]
    cases jsonStringValue e <;> simp

theorem jsonStringValue_append_multiByte (chunk : GoString) (e : GoString)
    (h : ∀ b ∈ chunk, RuneSelf ≤ b) :
    jsonStringValue (chunk ++ e) = (jsonStringValue e).map (fun v => chunk ++ v) := by
  refine jsonStringValue_append_plain chunk e (fun b hb => ?_)
  have := h b hb
  unfold RuneSelf at this
  omega

/-- Reading back what the encoder writes for a valid UTF-8 string gives the
string. -/
theorem jsonStringValue_appendStringFrom :
    ∀ (n : Nat) (s : GoString), s.length ≤ n → ValidString s = true →
      jsonStringValue (appendStringFrom 0 s) = some s := by
  intro n
  induction n with
  | zero =>
    intro s hn _
    have : s = [] := List.eq_nil_of_length_eq_zero (Nat.le_zero.mp hn)
    subst this; rfl
  | succ k ih =>
    intro s hn hv
    cases s with
    | nil => rfl
    | cons b rest =>
      have hlen : rest.length ≤ k := by simpa using hn
      unfold ValidString at hv
      by_cases hb : b < RuneSelf
      · have hv' : ValidString rest = true := by
          simp only [validFrom, DecodeRune_of_lt b rest hb, Bool.and_eq_true] at hv
          exact hv.2
        simp only [appendStringFrom, if_pos hb]
        rw [jsonStringValue_escapeByte b _ hb, ih rest hlen hv']
        rfl
      · have hb' : RuneSelf ≤ b := Nat.le_of_not_lt hb
        simp only [validFrom, Bool.and_eq_true, Bool.not_eq_true', decide_eq_false_iff_not]
          at hv
        obtain ⟨hne, hvrest⟩ := hv
        rw [validFrom_skip] at hvrest
        rcases DecodeRune_multiByte b rest hb' with e | ⟨e1, e2, e3⟩
        · rw [e] at hne; exact absurd ⟨rfl, rfl⟩ hne
        · have hpos : 1 ≤ (DecodeRune (b :: rest)).2 := by
            rw [e2]
            have := EncodeRune_ne_nil (DecodeRune (b :: rest)).1
            exact Nat.one_le_iff_ne_zero.mpr (fun h0 => this (List.eq_nil_of_length_eq_zero h0))
          have hdrop : (b :: rest).drop (DecodeRune (b :: rest)).2
              = rest.drop ((DecodeRune (b :: rest)).2 - 1) := by
            obtain ⟨m, hm⟩ : ∃ m, (DecodeRune (b :: rest)).2 = m + 1 :=
              ⟨(DecodeRune (b :: rest)).2 - 1, by omega⟩
            rw [hm]; rfl
          have htake : (b :: rest).take (DecodeRune (b :: rest)).2
              = EncodeRune (DecodeRune (b :: rest)).1 := by
            have h1 := congrArg (List.take (DecodeRune (b :: rest)).2) e1
            rw [e2, List.take_left] at h1
            rw [e2]; exact h1
          have hrec : jsonStringValue
              (appendStringFrom 0 (rest.drop ((DecodeRune (b :: rest)).2 - 1)))
              = some (rest.drop ((DecodeRune (b :: rest)).2 - 1)) := by
            refine ih _ ?_ hvrest
            exact le_trans (by simp) hlen
          simp only [appendStringFrom, if_neg hb, if_neg hne]
          rw [appendStringFrom_skip]
          split_ifs with h2028
          · have hval : jsonStringValue
                ([92, 117, 50, 48, 50, hexDigit ((DecodeRune (b :: rest)).1 % 16)]
                  ++ appendStringFrom 0 (rest.drop ((DecodeRune (b :: rest)).2 - 1)))
                = some (EncodeRune (DecodeRune (b :: rest)).1
                  ++ rest.drop ((DecodeRune (b :: rest)).2 - 1)) := by
              rcases h2028 with h | h <;> rw [h]
              · exact (jsonStringValue_unicodeEscape 50 48 50 56 2 0 2 8 _ rfl rfl rfl rfl
                  (by decide)).trans (by
                    change Option.map _ (jsonStringValue (appendStringFrom 0
                      (rest.drop ((DecodeRune (b :: rest)).2 - 1)))) = _
                    rw [hrec]; rfl)
              · exact (jsonStringValue_unicodeEscape 50 48 50 57 2 0 2 9 _ rfl rfl rfl rfl
                  (by decide)).trans (by
                    change Option.map _ (jsonStringValue (appendStringFrom 0
                      (rest.drop ((DecodeRune (b :: rest)).2 - 1)))) = _
                    rw [hrec]; rfl)
            rw [hval, ← hdrop, ← e1]
          · rw [htake, jsonStringValue_append_multiByte _ _
              (EncodeRune_bytes_ge _ e3), hrec]
            simp only [Option.map_some']
            rw [← hdrop, ← e1]

/-- The encoder writes a run of single-byte runes of `htmlSafeSet` as it is. -/
theorem appendStringFrom_append_safe (p s : GoString)
    (h : ∀ b ∈ p, b < RuneSelf ∧ htmlSafe b = true) :
    appendStringFrom 0 (p ++ s) = p ++ appendStringFrom 0 s := by
  induction p with
  | nil => rfl
  | cons b rest ih =>
    have hb := h b (List.mem_cons_self _ _)
    have step : appendStringFrom 0 (b :: (rest ++ s))
        = escapeByte b ++ appendStringFrom 0 (rest ++ s) := by
      simp only [appendStringFrom, if_pos hb.1]
    rw [List.cons_append, step, ih (fun x hx => h x (List.mem_cons_of_mem _ hx))]
    simp only [escapeByte, if_pos hb.2, List.singleton_append, List.cons_append,
      List.nil_append]

/-- The body written for the error envelope with message `m`. -/
theorem Encode_error (m : GoString) :
    Encode [(lit "status", lit "error"), (lit "message", m)]
      = lit "\x7b\"message\":" ++ appendString m ++ lit ",\"status\":\"error\"\x7d\n" := by
  have hsort : sortEntries [(lit "status", lit "error"), (lit "message", m)]
      = [(lit "message", m), (lit "status", lit "error")] := rfl
  unfold Encode
  rw [hsort]
  simp only [encodeMembers, List.append_assoc]
  rfl

/-- The body written when the parser fails on the path value `s`. -/
theorem Encode_invalidWeekend (s : GoString) :
    Encode [(lit "status", lit "error"), (lit "message", lit "Invalid weekend: " ++ s)]
      = lit "\x7b\"message\":\"" ++ (lit "Invalid weekend: " ++ appendStringFrom 0 s)
        ++ lit "\",\"status\":\"error\"\x7d\n" := by
  rw [Encode_error, appendString, appendStringFrom_append_safe _ s (by decide)]
  simp only [List.append_assoc]
  rfl

/-! ## The properties of the specification -/

/-- C1 (round trip): for each of the seven constants `d`, `DayOfWeekFromString`
applied to the canonical name of `d` returns `d` and a nil error. -/
theorem DayOfWeekFromString_String (mapLower : GoString → GoString)
    (d : DayOfWeek) (hd : d ∈ validDays) :
    DayOfWeekFromString mapLower (DayOfWeek.String d) = (d, none) :=
  DayOfWeekFromString_of_ToLower mapLower _ d hd rfl

theorem DayOfWeekFromString_String_witness :
    DayOfWeekThursday ∈ validDays ∧
      DayOfWeekFromString singleByteOnly (lit "Thursday") = (DayOfWeekThursday, none) :=
  ⟨by decide, DayOfWeekFromString_String singleByteOnly DayOfWeekThursday (by decide)⟩

/-- C2 (case-insensitive acceptance): for each of the seven constants `d` and
every set `sel` of positions, `DayOfWeekFromString` applied to the canonical
name of `d` with the case of the letters at the positions in `sel` changed
returns `d` and a nil error; so all casing variants of a name give one value. -/
theorem DayOfWeekFromString_changeCase (mapLower : GoString → GoString)
    (d : DayOfWeek) (hd : d ∈ validDays) (sel : Nat → Bool) :
    DayOfWeekFromString mapLower (changeCase sel (DayOfWeek.String d)) = (d, none) :=
  DayOfWeekFromString_of_ToLower mapLower _ d hd
    (ToLower_changeCase mapLower sel _ (String_singleByte d hd))

theorem DayOfWeekFromString_changeCase_witness :
    DayOfWeekMonday ∈ validDays ∧
      changeCase (fun i => i % 2 == 1) (DayOfWeek.String DayOfWeekMonday) = lit "MOnDaY" ∧
      DayOfWeekFromString singleByteOnly (lit "MOnDaY") = (DayOfWeekMonday, none) :=
  ⟨by decide, by decide,
    DayOfWeekFromString_changeCase singleByteOnly DayOfWeekMonday (by decide)
      (fun i => i % 2 == 1)⟩

/-- C3, as stated, fails: `FRIDAY` written with U+0130 (capital I with dot
above) for its `I` has bytes that are no letter of any canonical name, so it is
no casing variant of one; yet `unicode.ToLower` maps U+0130 to `i`, the
lower-case form of the input is `friday`, and `DayOfWeekFromString` returns
Friday with a nil error. -/
theorem DayOfWeekFromString_reject_counterexample :
    DayOfWeekFromString (MapToLower caseRangesIntoASCII) (lit "FR\u0130DAY")
        = (DayOfWeekFriday, none) ∧
      (∀ d ∈ validDays, ¬ isCasingVariant (lit "FR\u0130DAY") (DayOfWeek.String d)) :=
  ⟨by decide, not_isCasingVariant_of_map_ne _ (by decide)⟩

/-- C3, amended (rejection): when the input `s` is no casing variant of any of
the seven canonical names, and no casing variant of `Friday` written with U+0130
for its `i` either, `DayOfWeekFromString s` returns the value `-1` and a non-nil
error whose message is `invalid day of week: ` followed by `s` as it was
given. -/
theorem DayOfWeekFromString_reject (caseTable : Nat → Nat)
    (H : LowersIntoASCII caseTable) (s : GoString)
    (h : ∀ d ∈ validDays, ¬ isCasingVariant s (DayOfWeek.String d))
    (h130 : ¬ isCasingVariant s (lit "FR\u0130DAY")) :
    (DayOfWeekFromString (MapToLower caseTable) s).2 ≠ none ∧
      DayOfWeekFromString (MapToLower caseTable) s
        = (-1, some (lit "invalid day of week: " ++ s)) := by
  rcases DayOfWeekFromString_cases (MapToLower caseTable) s with ⟨_, e⟩ | ⟨d, hd, hm, _⟩
  · rw [e]; exact ⟨by simp, rfl⟩
  · rcases isCasingVariant_of_ToLower caseTable H s d hd hm with hv | ⟨_, hv⟩
    · exact absurd hv (h d hd)
    · exact absurd hv h130

theorem DayOfWeekFromString_reject_witness :
    DayOfWeekFromString (MapToLower caseRangesIntoASCII) (lit "Funday")
        = (-1, some (lit "invalid day of week: Funday")) ∧
      DayOfWeekFromString (MapToLower caseRangesIntoASCII) (lit "blah")
        = (-1, some (lit "invalid day of week: blah")) ∧
      DayOfWeekFromString (MapToLower caseRangesIntoASCII) (lit "")
        = (-1, some (lit "invalid day of week: ")) ∧
      DayOfWeekFromString (MapToLower caseRangesIntoASCII) (lit " Monday ")
        = (-1, some (lit "invalid day of week:  Monday ")) ∧
      DayOfWeekFromString (MapToLower caseRangesIntoASCII) (lit "F\u00fcnday")
        = (-1, some (lit "invalid day of week: F\u00fcnday")) ∧
      DayOfWeekFromString (MapToLower caseRangesIntoASCII) (lit "M0nday")
        = (-1, some (lit "invalid day of week: M0nday")) :=
  ⟨(DayOfWeekFromString_reject caseRangesIntoASCII LowersIntoASCII_caseRangesIntoASCII
      (lit "Funday") (not_isCasingVariant_of_map_ne _ (by decide))
      (fun hv => absurd ((isCasingVariant_iff _ _).mp hv) (by decide))).2,
   (DayOfWeekFromString_reject caseRangesIntoASCII LowersIntoASCII_caseRangesIntoASCII
      (lit "blah") (not_isCasingVariant_of_map_ne _ (by decide))
      (fun hv => absurd ((isCasingVariant_iff _ _).mp hv) (by decide))).2,
   (DayOfWeekFromString_reject caseRangesIntoASCII LowersIntoASCII_caseRangesIntoASCII
      (lit "") (not_isCasingVariant_of_map_ne _ (by decide))
      (fun hv => absurd ((isCasingVariant_iff _ _).mp hv) (by decide))).2,
   (DayOfWeekFromString_reject caseRangesIntoASCII LowersIntoASCII_caseRangesIntoASCII
      (lit " Monday ") (not_isCasingVariant_of_map_ne _ (by decide))
      (fun hv => absurd ((isCasingVariant_iff _ _).mp hv) (by decide))).2,
   (DayOfWeekFromString_reject caseRangesIntoASCII LowersIntoASCII_caseRangesIntoASCII
      (lit "F\u00fcnday") (not_isCasingVariant_of_map_ne _ (by decide))
      (fun hv => absurd ((isCasingVariant_iff _ _).mp hv) (by decide))).2,
   (DayOfWeekFromString_reject caseRangesIntoASCII LowersIntoASCII_caseRangesIntoASCII
      (lit "M0nday") (not_isCasingVariant_of_map_ne _ (by decide))
      (fun hv => absurd ((isCasingVariant_iff _ _).mp hv) (by decide))).2⟩

/-- C4 (weekend classification): for every `DayOfWeek` value `d`, the range
check of `WeekendValidation` is true exactly when `d` is `DayOfWeekSaturday` or
`DayOfWeekSunday`; it is true for Saturday and Sunday and false for Monday to
Friday. -/
theorem WeekendValidation_iff :
    (∀ d : DayOfWeek, WeekendValidation (FieldValue.dayOfWeek d) = true ↔
      (d = DayOfWeekSaturday ∨ d = DayOfWeekSunday)) ∧
    WeekendValidation (FieldValue.dayOfWeek DayOfWeekSaturday) = true ∧
    WeekendValidation (FieldValue.dayOfWeek DayOfWeekSunday) = true ∧
    WeekendValidation (FieldValue.dayOfWeek DayOfWeekMonday) = false ∧
    WeekendValidation (FieldValue.dayOfWeek DayOfWeekTuesday) = false ∧
    WeekendValidation (FieldValue.dayOfWeek DayOfWeekWednesday) = false ∧
    WeekendValidation (FieldValue.dayOfWeek DayOfWeekThursday) = false ∧
    WeekendValidation (FieldValue.dayOfWeek DayOfWeekFriday) = false := by
  refine ⟨?_, by decide, by decide, by decide, by decide, by decide, by decide, by decide⟩
  intro d
  have key : ∀ x : Int, ((5 : Int) ≤ x ∧ x ≤ (6 : Int)) ↔ (x = 5 ∨ x = 6) := by
    intro x; omega
  simp only [WeekendValidation, Bool.and_eq_true, decide_eq_true_eq]
  exact key d

/-- C5 (fixed ordinals): the seven constants are 0, 1, 2, 3, 4, 5, 6 in the
order Monday to Sunday; they are pairwise distinct and strictly increasing, and
every constant other than Saturday and Sunday is below both. -/
theorem DayOfWeek_ordinals :
    DayOfWeekMonday = 0 ∧ DayOfWeekTuesday = 1 ∧ DayOfWeekWednesday = 2 ∧
    DayOfWeekThursday = 3 ∧ DayOfWeekFriday = 4 ∧ DayOfWeekSaturday = 5 ∧
    DayOfWeekSunday = 6 ∧
    validDays.Nodup ∧
    validDays.Pairwise (fun a b => a < b) ∧
    (∀ d ∈ validDays, d ≠ DayOfWeekSaturday → d ≠ DayOfWeekSunday →
      d < DayOfWeekSaturday ∧ d < DayOfWeekSunday) := by
  refine ⟨rfl, rfl, rfl, rfl, rfl, rfl, rfl, by decide, by decide, by decide⟩

/-- C6, as stated, fails: for the payload `"monday` (a double quote, then
`monday`) put between double quotes, `UnmarshalJSON` strips both leading quotes,
stores Monday and returns nil, while `DayOfWeekFromString` on the payload
returns an error. With the quote of the payload escaped as JSON does
(`"\"monday"`), `UnmarshalJSON` fails, but with another message than
`DayOfWeekFromString` on the payload. -/
theorem UnmarshalJSON_quoted_counterexample :
    UnmarshalJSON singleByteOnly DayOfWeekThursday (quoted (lit "\"monday"))
        = (DayOfWeekMonday, none) ∧
      DayOfWeekFromString singleByteOnly (lit "\"monday")
        = (-1, some (lit "invalid day of week: \"monday")) ∧
      UnmarshalJSON singleByteOnly DayOfWeekThursday (lit "\"\\\"monday\"")
        = (DayOfWeekThursday, some (lit "invalid day of week: \\\"monday")) := by
  decide

/-- C6, amended (deserialization is parse): for every payload `p` that neither
begins nor ends with a double quote, `UnmarshalJSON` applied to `p` between
double quotes succeeds exactly when `DayOfWeekFromString p` succeeds; it then
stores the parsed value in the receiver and returns nil, and otherwise returns
the error of `DayOfWeekFromString p`. -/
theorem UnmarshalJSON_quoted (mapLower : GoString → GoString) (d0 : DayOfWeek)
    (p : GoString) (hhead : p.head? ≠ some 34) (hlast : p.getLast? ≠ some 34) :
    ((UnmarshalJSON mapLower d0 (quoted p)).2 = none ↔
      (DayOfWeekFromString mapLower p).2 = none) ∧
    ((DayOfWeekFromString mapLower p).2 = none →
      UnmarshalJSON mapLower d0 (quoted p) = ((DayOfWeekFromString mapLower p).1, none)) ∧
    ((DayOfWeekFromString mapLower p).2 ≠ none →
      (UnmarshalJSON mapLower d0 (quoted p)).2 = (DayOfWeekFromString mapLower p).2) := by
  unfold UnmarshalJSON
  rw [Trim_quoted p hhead hlast]
  by_cases e : (DayOfWeekFromString mapLower p).2 = none
  · simp [e]
  · simp [e]

theorem UnmarshalJSON_quoted_witness :
    UnmarshalJSON singleByteOnly DayOfWeekThursday (lit "\"sunDay\"")
        = (DayOfWeekSunday, none) ∧
      (UnmarshalJSON singleByteOnly DayOfWeekThursday (lit "\"Funday\"")).2
        = some (lit "invalid day of week: Funday") :=
  ⟨(UnmarshalJSON_quoted singleByteOnly DayOfWeekThursday (lit "sunDay")
      (by decide) (by decide)).2.1 (by decide),
   ((UnmarshalJSON_quoted singleByteOnly DayOfWeekThursday (lit "Funday")
      (by decide) (by decide)).2.2 (by decide)).trans (by decide)⟩

/-- C7, as stated, fails: for the path value `MONDAY` followed by the byte 0xFF
the parser fails, and the body sent carries the escape of U+FFFD where the byte
stood; the message a client reads ends in U+FFFD and is not
`Invalid weekend: ` followed by the path value. -/
theorem getWeekendHandler_counterexample :
    getWeekendHandler (MapToLower caseRangesIntoASCII) (lit "MONDAY" ++ [0xFF])
        = Response.mk 400 (lit "application/json")
            (lit "\x7b\"message\":\"Invalid weekend: MONDAY\\ufffd\",\"status\":\"error\"\x7d\n") ∧
      jsonStringValue (lit "Invalid weekend: MONDAY\\ufffd")
        = some (lit "Invalid weekend: MONDAY\ufffd") ∧
      lit "Invalid weekend: MONDAY\ufffd" ≠ lit "Invalid weekend: " ++ (lit "MONDAY" ++ [0xFF]) := by
  decide

/-- C7, amended (lookup by path): for every path value `s`, the handler of
`GET /weekends/{weekend}` answers, when `DayOfWeekFromString s` fails, with
status 400 and the JSON object of status `error` whose message reads
`Invalid weekend: ` followed by `s` provided `s` is valid UTF-8; when `s` parses
to Monday..Friday, with status 400 and the message made of the canonical name
and ` is not a weekend`; when `s` parses to Saturday or Sunday, with status 200
and the object of status `success` whose weekend is the canonical name. The
answer is a success exactly when `s` is a casing variant of `Saturday` or
`Sunday`. -/
theorem getWeekendHandler_outcome (caseTable : Nat → Nat)
    (H : LowersIntoASCII caseTable) (s : GoString) :
    ((DayOfWeekFromString (MapToLower caseTable) s).2 ≠ none →
      ∃ m, getWeekendHandler (MapToLower caseTable) s
          = Response.mk 400 (lit "application/json")
              (lit "\x7b\"message\":\"" ++ m ++ lit "\",\"status\":\"error\"\x7d\n") ∧
        (ValidString s = true → jsonStringValue m = some (lit "Invalid weekend: " ++ s))) ∧
    (∀ d ∈ [DayOfWeekMonday, DayOfWeekTuesday, DayOfWeekWednesday, DayOfWeekThursday,
        DayOfWeekFriday],
      DayOfWeekFromString (MapToLower caseTable) s = (d, none) →
      getWeekendHandler (MapToLower caseTable) s
        = Response.mk 400 (lit "application/json")
            (lit "\x7b\"message\":\"" ++ DayOfWeek.String d
              ++ lit " is not a weekend\",\"status\":\"error\"\x7d\n")) ∧
    (∀ d ∈ [DayOfWeekSaturday, DayOfWeekSunday],
      DayOfWeekFromString (MapToLower caseTable) s = (d, none) →
      getWeekendHandler (MapToLower caseTable) s
        = Response.mk 200 (lit "application/json")
            (lit "\x7b\"status\":\"success\",\"weekend\":\"" ++ DayOfWeek.String d
              ++ lit "\"\x7d\n")) ∧
    ((getWeekendHandler (MapToLower caseTable) s).code = 200 ↔
      (isCasingVariant s (lit "Saturday") ∨ isCasingVariant s (lit "Sunday"))) ∧
    getWeekendHandler (MapToLower caseTable) (lit "blah")
      = Response.mk 400 (lit "application/json")
          (lit "\x7b\"message\":\"Invalid weekend: blah\",\"status\":\"error\"\x7d\n") ∧
    getWeekendHandler (MapToLower caseTable) (lit "Wednesday")
      = Response.mk 400 (lit "application/json")
          (lit "\x7b\"message\":\"Wednesday is not a weekend\",\"status\":\"error\"\x7d\n") ∧
    getWeekendHandler (MapToLower caseTable) (lit "saturday")
      = Response.mk 200 (lit "application/json")
          (lit "\x7b\"status\":\"success\",\"weekend\":\"Saturday\"\x7d\n") := by
  have hfail : (DayOfWeekFromString (MapToLower caseTable) s).2 ≠ none →
      getWeekendHandler (MapToLower caseTable) s
        = Response.mk 400 (lit "application/json")
            (lit "\x7b\"message\":\"" ++ (lit "Invalid weekend: " ++ appendStringFrom 0 s)
              ++ lit "\",\"status\":\"error\"\x7d\n") := by
    intro h
    unfold getWeekendHandler
    simp only [if_pos h, Encode_invalidWeekend]
    rfl
  have hweekday : ∀ d ∈ [DayOfWeekMonday, DayOfWeekTuesday, DayOfWeekWednesday,
      DayOfWeekThursday, DayOfWeekFriday],
      DayOfWeekFromString (MapToLower caseTable) s = (d, none) →
      getWeekendHandler (MapToLower caseTable) s
        = Response.mk 400 (lit "application/json")
            (lit "\x7b\"message\":\"" ++ DayOfWeek.String d
              ++ lit " is not a weekend\",\"status\":\"error\"\x7d\n") := by
    intro d hd e
    unfold getWeekendHandler
    rw [e]
    simp only [List.mem_cons, List.mem_singleton, List.not_mem_nil, or_false] at hd
    rcases hd with h | h | h | h | h <;> subst h <;> rfl
  have hweekend : ∀ d ∈ [DayOfWeekSaturday, DayOfWeekSunday],
      DayOfWeekFromString (MapToLower caseTable) s = (d, none) →
      getWeekendHandler (MapToLower caseTable) s
        = Response.mk 200 (lit "application/json")
            (lit "\x7b\"status\":\"success\",\"weekend\":\"" ++ DayOfWeek.String d
              ++ lit "\"\x7d\n") := by
    intro d hd e
    unfold getWeekendHandler
    rw [e]
    simp only [List.mem_cons, List.mem_singleton, List.not_mem_nil, or_false] at hd
    rcases hd with h | h <;> subst h <;> rfl
  refine ⟨?_, hweekday, hweekend, ?_, rfl, rfl, rfl⟩
  · intro h
    refine ⟨lit "Invalid weekend: " ++ appendStringFrom 0 s, hfail h, fun hv => ?_⟩
    rw [jsonStringValue_append_plain _ _ (by decide),
      jsonStringValue_appendStringFrom s.length s (le_refl _) hv]
    rfl
  · -- a casing variant of a canonical name has the lower-case form of the name
    have hvar : ∀ d ∈ validDays, isCasingVariant s (DayOfWeek.String d) →
        ToLower (MapToLower caseTable) s = (DayOfWeek.String d).map lowerByte :=
      fun d hd hv => (ToLower_of_isCasingVariant _ s d hd hv).trans
        (ToLower_of_singleByte _ _ (String_singleByte d hd))
    rcases DayOfWeekFromString_cases (MapToLower caseTable) s with ⟨hno, e⟩ | ⟨d, hd, hm, e⟩
    · rw [hfail (by rw [e]; simp)]
      refine iff_of_false (fun hc => absurd hc (by decide : (400 : Nat) ≠ 200)) ?_
      rintro (hv | hv)
      · exact hno DayOfWeekSaturday (by decide)
          (ToLower_of_isCasingVariant _ s DayOfWeekSaturday (by decide) hv)
      · exact hno DayOfWeekSunday (by decide)
          (ToLower_of_isCasingVariant _ s DayOfWeekSunday (by decide) hv)
    · have hm' := hm
      rw [ToLower_of_singleByte _ _ (String_singleByte d hd)] at hm'
      have hsat := hvar DayOfWeekSaturday (by decide)
      have hsun := hvar DayOfWeekSunday (by decide)
      have hacc := isCasingVariant_of_ToLower caseTable H s d hd hm
      rw [mem_validDays] at hd
      rcases hd with h | h | h | h | h | h | h <;> subst h
      · rw [hweekday _ (by decide) e]
        refine iff_of_false (by decide) ?_
        rintro (hv | hv)
        · exact absurd (hm'.symm.trans (hsat hv)) (by decide)
        · exact absurd (hm'.symm.trans (hsun hv)) (by decide)
      · rw [hweekday _ (by decide) e]
        refine iff_of_false (by decide) ?_
        rintro (hv | hv)
        · exact absurd (hm'.symm.trans (hsat hv)) (by decide)
        · exact absurd (hm'.symm.trans (hsun hv)) (by decide)
      · rw [hweekday _ (by decide) e]
        refine iff_of_false (by decide) ?_
        rintro (hv | hv)
        · exact absurd (hm'.symm.trans (hsat hv)) (by decide)
        · exact absurd (hm'.symm.trans (hsun hv)) (by decide)
      · rw [hweekday _ (by decide) e]
        refine iff_of_false (by decide) ?_
        rintro (hv | hv)
        · exact absurd (hm'.symm.trans (hsat hv)) (by decide)
        · exact absurd (hm'.symm.trans (hsun hv)) (by decide)
      · rw [hweekday _ (by decide) e]
        refine iff_of_false (by decide) ?_
        rintro (hv | hv)
        · exact absurd (hm'.symm.trans (hsat hv)) (by decide)
        · exact absurd (hm'.symm.trans (hsun hv)) (by decide)
      · rw [hweekend _ (by decide) e]
        refine iff_of_true rfl (Or.inl ?_)
        rcases hacc with hv | ⟨h4, _⟩
        · exact hv
        · exact absurd h4 (by decide)
      · rw [hweekend _ (by decide) e]
        refine iff_of_true rfl (Or.inr ?_)
        rcases hacc with hv | ⟨h4, _⟩
        · exact hv
        · exact absurd h4 (by decide)

theorem getWeekendHandler_outcome_witness :
    LowersIntoASCII caseRangesIntoASCII ∧
      getWeekendHandler (MapToLower caseRangesIntoASCII) (lit "sunDAY")
        = Response.mk 200 (lit "application/json")
            (lit "\x7b\"status\":\"success\",\"weekend\":\"Sunday\"\x7d\n") ∧
      (∃ m, getWeekendHandler (MapToLower caseRangesIntoASCII) (lit "F\u00fcn<day>")
          = Response.mk 400 (lit "application/json")
              (lit "\x7b\"message\":\"" ++ m ++ lit "\",\"status\":\"error\"\x7d\n") ∧
        jsonStringValue m = some (lit "Invalid weekend: F\u00fcn<day>")) :=
  ⟨LowersIntoASCII_caseRangesIntoASCII,
   (getWeekendHandler_outcome caseRangesIntoASCII LowersIntoASCII_caseRangesIntoASCII
      (lit "sunDAY")).2.2.1 DayOfWeekSunday (by decide) (by decide),
   (fun ⟨m, hm, hval⟩ => ⟨m, hm, hval (by decide)⟩)
     ((getWeekendHandler_outcome caseRangesIntoASCII LowersIntoASCII_caseRangesIntoASCII
        (lit "F\u00fcn<day>")).1 (by decide))⟩

/-- C8 (result range of the parser): for every input, a nil error comes with one
of the ordinals 0..6, a non-nil error comes with the value `-1`, and the weekend
range check is false at `-1`. -/
theorem DayOfWeekFromString_range (mapLower : GoString → GoString) (s : GoString) :
    ((DayOfWeekFromString mapLower s).2 = none →
      (DayOfWeekFromString mapLower s).1 ∈ validDays ∧
        0 ≤ (DayOfWeekFromString mapLower s).1 ∧ (DayOfWeekFromString mapLower s).1 ≤ 6) ∧
    ((DayOfWeekFromString mapLower s).2 ≠ none →
      (DayOfWeekFromString mapLower s).1 = -1) ∧
    WeekendValidation (FieldValue.dayOfWeek (-1)) = false := by
  refine ⟨?_, ?_, by decide⟩
  · rcases DayOfWeekFromString_cases mapLower s with ⟨_, e⟩ | ⟨d, hd, _, e⟩
    · rw [e]; intro h; simp at h
    · rw [e]; intro _
      refine ⟨hd, ?_⟩
      have key : ∀ x : Int,
          (x = 0 ∨ x = 1 ∨ x = 2 ∨ x = 3 ∨ x = 4 ∨ x = 5 ∨ x = 6) → 0 ≤ x ∧ x ≤ 6 := by
        intro x hx; omega
      exact key d ((mem_validDays d).mp hd)
  · rcases DayOfWeekFromString_cases mapLower s with ⟨_, e⟩ | ⟨d, _, _, e⟩
    · rw [e]; intro _; rfl
    · rw [e]; intro h; simp at h

/-- C9 (atomic decode): when `UnmarshalJSON` returns a non-nil error, the
receiver holds afterwards the value `d0` it held before. -/
theorem UnmarshalJSON_error_keeps_receiver (mapLower : GoString → GoString)
    (d0 : DayOfWeek) (data : GoString)
    (h : (UnmarshalJSON mapLower d0 data).2 ≠ none) :
    (UnmarshalJSON mapLower d0 data).1 = d0 := by
  unfold UnmarshalJSON at h ⊢
  by_cases e : (DayOfWeekFromString mapLower (Trim data 34)).2 ≠ none
  · simp only [if_pos e]
  · simp only [if_neg e] at h
    exact absurd rfl h

theorem UnmarshalJSON_error_keeps_receiver_witness :
    (UnmarshalJSON singleByteOnly DayOfWeekThursday (lit "\"Funday\"")).2
        = some (lit "invalid day of week: Funday") ∧
      (UnmarshalJSON singleByteOnly DayOfWeekThursday (lit "\"Funday\"")).1
        = DayOfWeekThursday :=
  ⟨by decide,
   UnmarshalJSON_error_keeps_receiver singleByteOnly DayOfWeekThursday
     (lit "\"Funday\"") (by decide)⟩

/-- C10 (middleware chain order): `ChainMiddleware h [m1, ..., mn]` is
`mn (... (m2 (m1 h)))`, the left fold in which the first middleware is innermost
and the last outermost; with no middleware it is `h`; and the call of the server
gives `RecoveryMiddleware (LoggingMiddleware router)`. -/
theorem ChainMiddleware_order {H : Type} (h : H) (ms : List (H → H)) :
    ChainMiddleware h ms = nested ms.reverse h ∧
    ChainMiddleware h ms = ms.foldl (fun acc m => m acc) h ∧
    ChainMiddleware h [] = h ∧
    (∀ (router : H) (LoggingMiddleware RecoveryMiddleware : H → H),
      ChainMiddleware router [LoggingMiddleware, RecoveryMiddleware]
        = RecoveryMiddleware (LoggingMiddleware router)) := by
  refine ⟨?_, ?_, rfl, fun _ _ _ => rfl⟩
  · induction ms using List.reverseRecOn with
    | nil => rfl
    | append_singleton init m ih =>
      rw [ChainMiddleware_append, List.reverse_append, ih]
      rfl
  · induction ms generalizing h with
    | nil => rfl
    | cons a rest ih => exact ih (a h)

end EnumsInGo
